import Mathlib

/-!
Shallow embedding of `micro.js` (chrisbateman/micro), a small browser
utility library, together with proofs settling the specification claims.

Strings are modelled as `List Char`.  The class-manipulation functions of
`micro.dom` build the regular expression `(?:^|\s+)className(?:\s+|$)` from
the class name; the embedding specialises that pattern to a literal token
`cls`.  The specialisation is exact whenever `cls` is a plain CSS class
name (non-empty, made of word characters with no regex metacharacters and
no whitespace); the theorems about class operations carry that hypothesis
as `plainToken`.
-/

namespace Micro

/-- JavaScript `\s` on the ASCII range: space, tab, line feed, vertical tab,
form feed, carriage return. -/
def jsWs (c : Char) : Bool :=
  c = ' ' || c = '\t' || c = '\n' || c = '\x0b' || c = '\x0c' || c = '\r'

/-- The function `micro.util.trim` (micro.js:310-316): strips leading and trailing
whitespace (`String.prototype.trim`, or the regex `^\s+|\s+$` fallback —
both remove exactly the leading and trailing whitespace runs). -/
def trim (s : List Char) : List Char :=
  ((s.dropWhile jsWs).reverse.dropWhile jsWs).reverse

/-- The whitespace-delimited tokens of a class-attribute string, with `cur`
the (reversed) word currently being read. -/
def wordsAcc : List Char → List Char → List (List Char)
  | cur, [] => if cur = [] then [] else [cur.reverse]
  | cur, c :: t =>
    if jsWs c then
      if cur = [] then wordsAcc [] t else cur.reverse :: wordsAcc [] t
    else wordsAcc (c :: cur) t

/-- The whitespace-delimited tokens of a string. -/
def words (s : List Char) : List (List Char) := wordsAcc [] s

/-- Returns `some rest` when the pattern is a prefix of `s` and `rest` is what follows. -/
def stripPre : List Char → List Char → Option (List Char)
  | [], s => some s
  | _ :: _, [] => none
  | p :: ps, c :: cs => if p = c then stripPre ps cs else none

/-- Attempt the tail `cls(?:\s+|$)` of the class regex at the current
position: `cls` must match here and be followed by whitespace or the end of
the string; on success returns the remainder after the greedily consumed
trailing whitespace run. -/
def tryAt (cls s : List Char) : Option (List Char) :=
  match stripPre cls s with
  | none => none
  | some rest =>
    match rest with
    | [] => some []
    | c :: _ => if jsWs c then some (rest.dropWhile jsWs) else none

/-- Scan for the `\s+cls(?:\s+|$)` alternative of the class regex, at
successive start positions left to right exactly as the JS engine does.
On a match, returns the part of `s` before the match and the remainder
after it (the match itself covers the whitespace run, `cls`, and the
trailing whitespace run). -/
def scanFrom (cls : List Char) : List Char → Option (List Char × List Char)
  | [] => none
  | c :: t =>
    if jsWs c then
      match tryAt cls (t.dropWhile jsWs) with
      | some rem => some ([], rem)
      | none =>
        match scanFrom cls t with
        | some pr => some (c :: pr.1, pr.2)
        | none => none
    else
      match scanFrom cls t with
      | some pr => some (c :: pr.1, pr.2)
      | none => none

/-- The function `micro.dom.hasClass` (micro.js:14-17): tests the class attribute `s`
against `new RegExp('(?:^|\\s+)' + cls + '(?:\\s+|$)')`. -/
def hasClass (s cls : List Char) : Bool :=
  (tryAt cls s).isSome || (scanFrom cls s).isSome

/-- The function `micro.dom.addClass` (micro.js:26-30): if `hasClass` fails, sets the
attribute to `trim([s, cls].join(' '))`. -/
def addClass (s cls : List Char) : List Char :=
  if hasClass s cls then s else trim (s ++ ' ' :: cls)

/-- One application of
`s.replace(new RegExp('(?:^|\\s+)' + cls + '(?:\\s+|$)'), ' ')`
(micro.js:41): the leftmost match of the class regex is replaced by a
single space; `none` when there is no match. -/
def replaceFirst (s cls : List Char) : Option (List Char) :=
  match tryAt cls s with
  | some rem => some (' ' :: rem)
  | none =>
    match scanFrom cls s with
    | some pr => some (pr.1 ++ ' ' :: pr.2)
    | none => none

/-- The body of `micro.dom.removeClass` (micro.js:39-47), with explicit
fuel for the self-recursion `this.removeClass(node, className)`; the fuel
chosen in `removeClass` is proved sufficient (each round strictly shortens
the attribute). -/
def removeClassGo : Nat → List Char → List Char → List Char
  | 0, s, _ => s
  | f + 1, s, cls =>
    if cls ≠ [] ∧ hasClass s cls = true then
      if hasClass (trim ((replaceFirst s cls).getD s)) cls then
        removeClassGo f (trim ((replaceFirst s cls).getD s)) cls
      else trim ((replaceFirst s cls).getD s)
    else s

/-- The function `micro.dom.removeClass` (micro.js:39-47). -/
def removeClass (s cls : List Char) : List Char :=
  removeClassGo (s.length + 1) s cls

/-- A plain CSS class name: non-empty, word characters or hyphen only
(no whitespace, no regex metacharacters), the scope on which the literal
embedding of the class regex is exact. -/
def plainToken (cls : List Char) : Bool :=
  !cls.isEmpty && cls.all (fun c => c.isAlphanum || c = '-' || c = '_')

/-! ### Helper lemmas on characters, `dropWhile`, `takeWhile`, `stripPre` -/

theorem plainToken_ne_nil {cls : List Char} (h : plainToken cls = true) : cls ≠ [] := by
  intro hnil
  subst hnil
  simp [plainToken] at h

theorem plainToken_nonws {cls : List Char} (h : plainToken cls = true) :
    ∀ c ∈ cls, jsWs c = false := by
  intro c hc
  have hall : ∀ c ∈ cls, (c.isAlphanum || c = '-' || c = '_') = true := by
    have := (Bool.and_eq_true _ _).mp h
    exact (List.all_eq_true).mp this.2
  have hc' := hall c hc
  by_contra hws
  have hws' : jsWs c = true := by
    cases hw : jsWs c
    · exact absurd hw hws
    · rfl
  simp only [jsWs, Bool.or_eq_true, decide_eq_true_eq] at hws'
  rcases hws' with ((((h1 | h1) | h1) | h1) | h1) | h1 <;> subst h1 <;> simp at hc'

theorem head_dropWhile_nonws {p : Char → Bool} {l r : List Char} {d : Char}
    (h : l.dropWhile p = d :: r) : p d = false := by
  induction l with
  | nil => simp [List.dropWhile] at h
  | cons c t ih =>
    by_cases hc : p c = true
    · exact ih (by simpa [List.dropWhile, hc] using h)
    · have hc' : p c = false := by
        cases hx : p c
        · rfl
        · exact absurd hx hc
      simp [List.dropWhile, hc'] at h
      rw [← h.1]
      exact hc'

theorem dropWhile_cons_pos {p : Char → Bool} {c : Char} {t : List Char} (h : p c = true) :
    (c :: t).dropWhile p = t.dropWhile p := by
  simp [List.dropWhile, h]

theorem dropWhile_cons_neg {p : Char → Bool} {c : Char} {t : List Char} (h : p c = false) :
    (c :: t).dropWhile p = c :: t := by
  simp [List.dropWhile, h]

theorem takeWhile_cons_pos {p : Char → Bool} {c : Char} {t : List Char} (h : p c = true) :
    (c :: t).takeWhile p = c :: t.takeWhile p := by
  simp [List.takeWhile, h]

theorem takeWhile_dropWhile_append {p : Char → Bool} {A B : List Char}
    (hA : ∀ x ∈ A, p x = true)
    (hB : B = [] ∨ ∃ d B', B = d :: B' ∧ p d = false) :
    (A ++ B).takeWhile p = A ∧ (A ++ B).dropWhile p = B := by
  induction A with
  | nil =>
    simp only [List.nil_append]
    rcases hB with h | ⟨d, B', hB', hd⟩
    · subst h
      exact ⟨rfl, rfl⟩
    · subst hB'
      constructor
      · simp [List.takeWhile, hd]
      · simp [List.dropWhile, hd]
  | cons a A' ih =>
    have ha : p a = true := hA a (List.mem_cons_self a A')
    have ih' := ih (fun x hx => hA x (List.mem_cons_of_mem a hx))
    constructor
    · simpa [List.cons_append, takeWhile_cons_pos ha] using ih'.1
    · simpa [List.cons_append, dropWhile_cons_pos ha] using ih'.2

theorem stripPre_eq_append {p s r : List Char} (h : stripPre p s = some r) :
    s = p ++ r := by
  induction p generalizing s with
  | nil =>
    simp [stripPre] at h
    simp [h]
  | cons a ps ih =>
    cases s with
    | nil => simp [stripPre] at h
    | cons c cs =>
      by_cases hac : a = c
      · subst hac
        simp only [stripPre, if_pos rfl] at h
        simpa using ih h
      · simp [stripPre, hac] at h

theorem stripPre_append (p s : List Char) : stripPre p (p ++ s) = some s := by
  induction p with
  | nil => simp [stripPre]
  | cons a ps ih => simp [stripPre, ih]

/-! ### Lemmas about the tokenizer `words` -/

theorem words_ws_cons {c : Char} {t : List Char} (h : jsWs c = true) :
    words (c :: t) = words t := by
  simp [words, wordsAcc, h]

theorem wordsAcc_allws {W : List Char} (hW : ∀ c ∈ W, jsWs c = true) :
    ∀ cur, wordsAcc cur W = wordsAcc cur [] := by
  induction W with
  | nil => intro cur; rfl
  | cons w W' ih =>
    intro cur
    have hw : jsWs w = true := hW w (List.mem_cons_self w W')
    have ih' := ih (fun c hc => hW c (List.mem_cons_of_mem w hc)) []
    by_cases hcur : cur = []
    · subst hcur
      simp [wordsAcc, hw, ih']
    · simp [wordsAcc, hw, hcur, ih']

theorem wordsAcc_append_allws {W : List Char} (hW : ∀ c ∈ W, jsWs c = true) :
    ∀ (A : List Char) (cur), wordsAcc cur (A ++ W) = wordsAcc cur A := by
  intro A
  induction A with
  | nil =>
    intro cur
    simpa [wordsAcc] using wordsAcc_allws hW cur
  | cons a A' ih =>
    intro cur
    by_cases ha : jsWs a = true
    · by_cases hcur : cur = []
      · subst hcur
        simp [wordsAcc, ha, ih]
      · simp [wordsAcc, ha, hcur, ih]
    · have ha' : jsWs a = false := by
        cases hx : jsWs a
        · rfl
        · exact absurd hx ha
      simp [wordsAcc, ha', ih]

theorem wordsAcc_nonws_run {y : List Char} (hy : ∀ c ∈ y, jsWs c = false) :
    ∀ (rest : List Char) (cur), wordsAcc cur (y ++ rest) = wordsAcc (y.reverse ++ cur) rest := by
  induction y with
  | nil => intro rest cur; rfl
  | cons a y' ih =>
    intro rest cur
    have ha : jsWs a = false := hy a (List.mem_cons_self a y')
    have ih' := ih (fun c hc => hy c (List.mem_cons_of_mem a hc)) rest (a :: cur)
    have hstep : wordsAcc cur (a :: y' ++ rest) = wordsAcc (a :: cur) (y' ++ rest) := by
      simp [wordsAcc, ha]
    rw [List.cons_append] at hstep
    rw [show (a :: y') ++ rest = a :: (y' ++ rest) from List.cons_append a y' rest]
    rw [hstep, ih']
    congr 1
    simp

theorem wordsAcc_flush {cur rest : List Char} (hcur : cur ≠ [])
    (hrest : rest = [] ∨ ∃ d t, rest = d :: t ∧ jsWs d = true) :
    wordsAcc cur rest = cur.reverse :: wordsAcc [] rest := by
  rcases hrest with h | ⟨d, t, hdt, hd⟩
  · subst h
    simp [wordsAcc, hcur]
  · subst hdt
    simp [wordsAcc, hd, hcur]

theorem words_cons_nonws {c : Char} {t : List Char} (h : jsWs c = false) :
    words (c :: t) =
      (c :: t.takeWhile (fun x => !jsWs x)) :: words (t.dropWhile (fun x => !jsWs x)) := by
  have htk : ∀ x ∈ t.takeWhile (fun x => !jsWs x), jsWs x = false := by
    intro x hx
    have := List.mem_takeWhile_imp hx
    simpa using this
  have hsplit : t = t.takeWhile (fun x => !jsWs x) ++ t.dropWhile (fun x => !jsWs x) :=
    (List.takeWhile_append_dropWhile _ _).symm
  have hdr : t.dropWhile (fun x => !jsWs x) = [] ∨
      ∃ d t', t.dropWhile (fun x => !jsWs x) = d :: t' ∧ jsWs d = true := by
    cases hd : t.dropWhile (fun x => !jsWs x) with
    | nil => exact Or.inl rfl
    | cons d t' =>
      refine Or.inr ⟨d, t', rfl, ?_⟩
      have := head_dropWhile_nonws hd
      simpa using this
  have h1 : words (c :: t) = wordsAcc [c] t := by
    simp [words, wordsAcc, h]
  rw [h1]
  conv_lhs => rw [hsplit]
  rw [wordsAcc_nonws_run htk]
  rw [wordsAcc_flush (by simp) hdr]
  simp [words]

theorem wordsAcc_append_ws_word {w : Char} {n : List Char} (hw : jsWs w = true)
    (hn : ∀ c ∈ n, jsWs c = false) (hne : n ≠ []) :
    ∀ (A : List Char) (cur), wordsAcc cur (A ++ w :: n) = wordsAcc cur A ++ [n] := by
  intro A
  induction A with
  | nil =>
    intro cur
    have hbase : wordsAcc ([] : List Char) n = [n] := by
      have := wordsAcc_nonws_run hn [] []
      simp only [List.append_nil] at this
      rw [this]
      simp [wordsAcc, hne]
    by_cases hcur : cur = []
    · subst hcur
      simp [wordsAcc, hw, hbase]
    · simp [wordsAcc, hw, hcur, hbase]
  | cons a A' ih =>
    intro cur
    by_cases ha : jsWs a = true
    · by_cases hcur : cur = []
      · subst hcur
        simp [wordsAcc, ha, ih]
      · simp [wordsAcc, ha, hcur, ih]
    · have ha' : jsWs a = false := by
        cases hx : jsWs a
        · rfl
        · exact absurd hx ha
      simp [wordsAcc, ha', ih]

theorem words_append_ws_word {w : Char} {n A : List Char} (hw : jsWs w = true)
    (hn : ∀ c ∈ n, jsWs c = false) (hne : n ≠ []) :
    words (A ++ w :: n) = words A ++ [n] :=
  wordsAcc_append_ws_word hw hn hne A []

theorem words_dropWhile_ws (s : List Char) : words (s.dropWhile jsWs) = words s := by
  induction s with
  | nil => rfl
  | cons c t ih =>
    by_cases hc : jsWs c = true
    · rw [dropWhile_cons_pos hc, ih, words_ws_cons hc]
    · have hc' : jsWs c = false := by
        cases hx : jsWs c
        · rfl
        · exact absurd hx hc
      rw [dropWhile_cons_neg hc']

theorem words_trim (s : List Char) : words (trim s) = words s := by
  have h1 : words (s.dropWhile jsWs) = words s := words_dropWhile_ws s
  set u := s.dropWhile jsWs with hu
  have hsplit : u.reverse = u.reverse.takeWhile jsWs ++ u.reverse.dropWhile jsWs :=
    (List.takeWhile_append_dropWhile _ _).symm
  have hu2 : u = (u.reverse.dropWhile jsWs).reverse ++ (u.reverse.takeWhile jsWs).reverse := by
    have h := congrArg List.reverse hsplit
    rw [List.reverse_reverse, List.reverse_append] at h
    exact h
  have hW : ∀ c ∈ (u.reverse.takeWhile jsWs).reverse, jsWs c = true := by
    intro c hc
    rw [List.mem_reverse] at hc
    exact List.mem_takeWhile_imp hc
  have h2 : words u = words (trim s) := by
    conv_lhs => rw [hu2]
    have := wordsAcc_append_allws hW (u.reverse.dropWhile jsWs).reverse []
    simpa [words, trim, hu] using this
  rw [← h2, h1]

/-! ### Characterisation of `hasClass`: token membership -/

theorem dropWhile_length_le (p : Char → Bool) (l : List Char) :
    (l.dropWhile p).length ≤ l.length := by
  induction l with
  | nil => simp
  | cons c t ih =>
    by_cases hc : p c = true
    · rw [dropWhile_cons_pos hc]
      exact Nat.le_trans ih (Nat.le_succ _)
    · have hc' : p c = false := by
        cases hx : p c
        · rfl
        · exact absurd hx hc
      rw [dropWhile_cons_neg hc']

theorem tryAt_nil {cls : List Char} (hne : cls ≠ []) : tryAt cls [] = none := by
  cases cls with
  | nil => exact absurd rfl hne
  | cons a ps => rfl

theorem tryAt_ws_head {cls : List Char} (hne : cls ≠ [])
    (hnw : ∀ x ∈ cls, jsWs x = false) {d : Char} {t : List Char} (hd : jsWs d = true) :
    tryAt cls (d :: t) = none := by
  cases cls with
  | nil => exact absurd rfl hne
  | cons a ps =>
    have ha : jsWs a = false := hnw a (List.mem_cons_self a ps)
    have had : a ≠ d := by
      intro h
      rw [h, hd] at ha
      exact Bool.noConfusion ha
    simp [tryAt, stripPre, had]

theorem tryAt_eq_some {cls s rem : List Char} (h : tryAt cls s = some rem) :
    ∃ rest, s = cls ++ rest ∧ rem = rest.dropWhile jsWs ∧
      (rest = [] ∨ ∃ d t', rest = d :: t' ∧ jsWs d = true) := by
  unfold tryAt at h
  cases hsp : stripPre cls s with
  | none => rw [hsp] at h; exact absurd h (by simp)
  | some rest =>
    rw [hsp] at h
    have hs := stripPre_eq_append hsp
    cases rest with
    | nil =>
      simp only [Option.some.injEq] at h
      exact ⟨[], hs, by simp [← h], Or.inl rfl⟩
    | cons d t' =>
      by_cases hd : jsWs d = true
      · simp only [hd, if_true, Option.some.injEq] at h
        exact ⟨d :: t', hs, h.symm, Or.inr ⟨d, t', rfl, hd⟩⟩
      · have hd' : jsWs d = false := by
          cases hx : jsWs d
          · rfl
          · exact absurd hx hd
        simp [hd'] at h

theorem tryAt_append_boundary {cls rest : List Char}
    (hb : rest = [] ∨ ∃ d t', rest = d :: t' ∧ jsWs d = true) :
    tryAt cls (cls ++ rest) = some (rest.dropWhile jsWs) := by
  unfold tryAt
  rw [stripPre_append]
  rcases hb with h | ⟨d, t', hdt, hd⟩
  · subst h
    rfl
  · subst hdt
    simp [hd]

theorem scanFrom_isSome_cons_nonws {cls : List Char} {c : Char} {t : List Char}
    (hc : jsWs c = false) :
    (scanFrom cls (c :: t)).isSome = (scanFrom cls t).isSome := by
  simp only [scanFrom, hc, Bool.false_eq_true, if_false]
  cases scanFrom cls t <;> rfl

theorem scanFrom_isSome_cons_ws {cls : List Char} {c : Char} {t : List Char}
    (hc : jsWs c = true) :
    (scanFrom cls (c :: t)).isSome =
      ((tryAt cls (t.dropWhile jsWs)).isSome || (scanFrom cls t).isSome) := by
  simp only [scanFrom, hc, if_true]
  cases tryAt cls (t.dropWhile jsWs) with
  | none => cases scanFrom cls t <;> rfl
  | some rem => rfl

theorem scanFrom_nonws_run {cls : List Char} {A : List Char}
    (hA : ∀ x ∈ A, jsWs x = false) (B : List Char) :
    (scanFrom cls (A ++ B)).isSome = (scanFrom cls B).isSome := by
  induction A with
  | nil => rfl
  | cons a A' ih =>
    have ha : jsWs a = false := hA a (List.mem_cons_self a A')
    rw [List.cons_append, scanFrom_isSome_cons_nonws ha]
    exact ih (fun x hx => hA x (List.mem_cons_of_mem a hx))

theorem hasClass_ws_cons {cls : List Char} (hne : cls ≠ [])
    (hnw : ∀ x ∈ cls, jsWs x = false) {c : Char} {t : List Char} (hc : jsWs c = true) :
    hasClass (c :: t) cls = hasClass t cls := by
  unfold hasClass
  rw [tryAt_ws_head hne hnw hc, scanFrom_isSome_cons_ws hc]
  cases t with
  | nil =>
    simp only [List.dropWhile_nil]
    rw [tryAt_nil hne]
    rfl
  | cons d t' =>
    by_cases hd : jsWs d = true
    · rw [tryAt_ws_head hne hnw hd, scanFrom_isSome_cons_ws hd,
        dropWhile_cons_pos hd]
      cases (tryAt cls (t'.dropWhile jsWs)).isSome <;>
        cases (scanFrom cls t').isSome <;> rfl
    · have hd' : jsWs d = false := by
        cases hx : jsWs d
        · rfl
        · exact absurd hx hd
      rw [dropWhile_cons_neg hd']
      simp

theorem tryAt_isSome_cons_nonws {cls : List Char} (hne : cls ≠ [])
    (hnw : ∀ x ∈ cls, jsWs x = false) {c : Char} {t : List Char} :
    (tryAt cls (c :: t)).isSome = decide (cls = c :: t.takeWhile (fun x => !jsWs x)) := by
  by_cases h : cls = c :: t.takeWhile (fun x => !jsWs x)
  · have hsplit : c :: t = cls ++ t.dropWhile (fun x => !jsWs x) := by
      rw [h, List.cons_append, List.takeWhile_append_dropWhile]
    have hb : t.dropWhile (fun x => !jsWs x) = [] ∨
        ∃ d t', t.dropWhile (fun x => !jsWs x) = d :: t' ∧ jsWs d = true := by
      cases hdr : t.dropWhile (fun x => !jsWs x) with
      | nil => exact Or.inl rfl
      | cons d t' =>
        refine Or.inr ⟨d, t', rfl, ?_⟩
        have := head_dropWhile_nonws hdr
        simpa using this
    rw [hsplit, tryAt_append_boundary hb]
    simp [h]
  · rw [decide_eq_false h]
    cases hx : tryAt cls (c :: t) with
    | none => rfl
    | some rem =>
      exfalso
      obtain ⟨rest, hs, _, hb⟩ := tryAt_eq_some hx
      apply h
      cases cls with
      | nil => exact absurd rfl hne
      | cons a cls' =>
        rw [List.cons_append] at hs
        injection hs with h1 h2
        have hcls' : ∀ x ∈ cls', (fun x => !jsWs x) x = true := by
          intro x hx'
          have := hnw x (List.mem_cons_of_mem a hx')
          simp [this]
        have hb' : rest = [] ∨ ∃ d B', rest = d :: B' ∧ (fun x => !jsWs x) d = false := by
          rcases hb with hrest | ⟨d, t', hdt, hd⟩
          · exact Or.inl hrest
          · exact Or.inr ⟨d, t', hdt, by simp [hd]⟩
        have htk := (takeWhile_dropWhile_append hcls' hb').1
        rw [← h2] at htk
        rw [← h1, htk]

theorem hasClass_cons_nonws {cls : List Char} (hne : cls ≠ [])
    (hnw : ∀ x ∈ cls, jsWs x = false) {c : Char} {t : List Char} (hc : jsWs c = false) :
    hasClass (c :: t) cls =
      (decide (cls = c :: t.takeWhile (fun x => !jsWs x)) ||
        hasClass (t.dropWhile (fun x => !jsWs x)) cls) := by
  unfold hasClass
  rw [tryAt_isSome_cons_nonws hne hnw, scanFrom_isSome_cons_nonws hc]
  have hsc : (scanFrom cls t).isSome = (scanFrom cls (t.dropWhile (fun x => !jsWs x))).isSome := by
    conv_lhs => rw [← List.takeWhile_append_dropWhile (fun x => !jsWs x) t]
    refine scanFrom_nonws_run ?_ _
    intro x hx
    have := List.mem_takeWhile_imp hx
    simpa using this
  rw [hsc]
  have hta : (tryAt cls (t.dropWhile (fun x => !jsWs x))).isSome = false := by
    cases hdr : t.dropWhile (fun x => !jsWs x) with
    | nil => rw [tryAt_nil hne]; rfl
    | cons d t' =>
      have hd : jsWs d = true := by
        have := head_dropWhile_nonws hdr
        simpa using this
      rw [tryAt_ws_head hne hnw hd]
      rfl
  rw [hta]
  cases decide (cls = c :: t.takeWhile (fun x => !jsWs x)) <;>
    cases (scanFrom cls (t.dropWhile (fun x => !jsWs x))).isSome <;> rfl

theorem hasClass_iff_mem_words {cls : List Char} (hp : plainToken cls = true) :
    ∀ s, hasClass s cls = true ↔ cls ∈ words s := by
  have hne := plainToken_ne_nil hp
  have hnw := plainToken_nonws hp
  suffices h : ∀ (n : Nat) (s : List Char), s.length = n →
      (hasClass s cls = true ↔ cls ∈ words s) by
    intro s
    exact h s.length s rfl
  intro n
  induction n using Nat.strong_induction_on with
  | _ n ih =>
    intro s hn
    cases s with
    | nil =>
      rw [show hasClass [] cls = false by rw [hasClass, tryAt_nil hne]; rfl]
      simp [words, wordsAcc]
    | cons c t =>
      by_cases hc : jsWs c = true
      · rw [hasClass_ws_cons hne hnw hc, words_ws_cons hc]
        refine ih t.length ?_ t rfl
        rw [← hn]
        simp
      · have hc' : jsWs c = false := by
          cases hx : jsWs c
          · rfl
          · exact absurd hx hc
        rw [hasClass_cons_nonws hne hnw hc', words_cons_nonws hc']
        have hlen : (t.dropWhile (fun x => !jsWs x)).length < n := by
          rw [← hn]
          have := dropWhile_length_le (fun x => !jsWs x) t
          simpa using Nat.lt_succ_of_le this
        have ihdr := ih _ hlen (t.dropWhile (fun x => !jsWs x)) rfl
        constructor
        · intro h
          rcases Bool.or_eq_true_iff.mp h with h1 | h1
          · rw [of_decide_eq_true h1]
            exact List.mem_cons_self _ _
          · exact List.mem_cons_of_mem _ (ihdr.mp h1)
        · intro h
          rcases List.mem_cons.mp h with h1 | h1
          · exact Bool.or_eq_true_iff.mpr (Or.inl (decide_eq_true h1))
          · exact Bool.or_eq_true_iff.mpr (Or.inr (ihdr.mpr h1))

/-! ### Behaviour of `removeClass` -/

theorem trim_length_le (s : List Char) : (trim s).length ≤ s.length := by
  unfold trim
  rw [List.length_reverse]
  calc ((s.dropWhile jsWs).reverse.dropWhile jsWs).length
      ≤ (s.dropWhile jsWs).reverse.length := dropWhile_length_le _ _
    _ = (s.dropWhile jsWs).length := List.length_reverse _
    _ ≤ s.length := dropWhile_length_le _ _

theorem tryAt_some_length {cls s rem : List Char} (h : tryAt cls s = some rem) :
    rem.length + cls.length ≤ s.length := by
  obtain ⟨rest, hs, hrem, _⟩ := tryAt_eq_some h
  subst hs
  subst hrem
  rw [List.length_append]
  have := dropWhile_length_le jsWs rest
  omega

theorem scanFrom_some_length {cls s pre rem : List Char}
    (hne : cls ≠ []) (h : scanFrom cls s = some (pre, rem)) :
    pre.length + rem.length + 2 ≤ s.length := by
  induction s generalizing pre rem with
  | nil => simp [scanFrom] at h
  | cons c t ih =>
    have hclen : 1 ≤ cls.length := List.length_pos.mpr hne
    by_cases hc : jsWs c = true
    · cases htry : tryAt cls (t.dropWhile jsWs) with
      | some rem' =>
        simp only [scanFrom, hc, if_true, htry] at h
        simp only [Option.some.injEq, Prod.mk.injEq] at h
        obtain ⟨h1, h2⟩ := h
        subst h1
        subst h2
        have hb := tryAt_some_length htry
        have hd := dropWhile_length_le jsWs t
        simp only [List.length_nil, List.length_cons]
        omega
      | none =>
        simp only [scanFrom, hc, if_true, htry] at h
        cases hsc : scanFrom cls t with
        | none => rw [hsc] at h; exact absurd h (by simp)
        | some pr =>
          obtain ⟨p1, p2⟩ := pr
          rw [hsc] at h
          simp only [Option.some.injEq, Prod.mk.injEq] at h
          obtain ⟨h1, h2⟩ := h
          subst h1
          subst h2
          have := ih hsc
          simp only [List.length_cons]
          omega
    · have hc' : jsWs c = false := by
        cases hx : jsWs c
        · rfl
        · exact absurd hx hc
      simp only [scanFrom, hc', Bool.false_eq_true, if_false] at h
      cases hsc : scanFrom cls t with
      | none => rw [hsc] at h; exact absurd h (by simp)
      | some pr =>
        obtain ⟨p1, p2⟩ := pr
        rw [hsc] at h
        simp only [Option.some.injEq, Prod.mk.injEq] at h
        obtain ⟨h1, h2⟩ := h
        subst h1
        subst h2
        have := ih hsc
        simp only [List.length_cons]
        omega

theorem replaceFirst_some_length {s cls r : List Char} (hne : cls ≠ [])
    (h : replaceFirst s cls = some r) : (trim r).length < s.length := by
  have hclen : 1 ≤ cls.length := List.length_pos.mpr hne
  unfold replaceFirst at h
  cases htry : tryAt cls s with
  | some rem =>
    rw [htry] at h
    simp only [Option.some.injEq] at h
    obtain ⟨rest, hs, hrem, hb⟩ := tryAt_eq_some htry
    rcases hb with hb | ⟨d, t', hdt, hd⟩
    · subst hb
      have hrem' : rem = [] := by simpa using hrem
      subst hrem'
      rw [← h]
      have htr : trim [' '] = ([] : List Char) := by decide
      rw [htr]
      rw [hs]
      simpa using hclen
    · subst hdt
      have hrem2 : rem = t'.dropWhile jsWs := by
        rw [hrem, dropWhile_cons_pos hd]
      have h1 := dropWhile_length_le jsWs t'
      have htr := trim_length_le r
      have hrlen : r.length = rem.length + 1 := by rw [← h]; simp
      rw [hrem2] at hrlen
      have hslen : s.length = cls.length + t'.length + 1 := by
        rw [hs]
        simp only [List.length_append, List.length_cons]
        omega
      omega
  | none =>
    rw [htry] at h
    cases hsc : scanFrom cls s with
    | none => rw [hsc] at h; exact absurd h (by simp)
    | some pr =>
      obtain ⟨p1, p2⟩ := pr
      rw [hsc] at h
      simp only [Option.some.injEq] at h
      have hb := scanFrom_some_length hne hsc
      have htr := trim_length_le r
      have hrlen : r.length = p1.length + p2.length + 1 := by
        rw [← h]
        simp only [List.length_append, List.length_cons]
        omega
      omega

theorem hasClass_replaceFirst_isSome {s cls : List Char} (h : hasClass s cls = true) :
    (replaceFirst s cls).isSome = true := by
  unfold hasClass at h
  unfold replaceFirst
  cases htry : tryAt cls s with
  | some rem => simp
  | none =>
    rw [htry] at h
    simp only [Option.isSome_none, Bool.false_or] at h
    cases hsc : scanFrom cls s with
    | none => rw [hsc] at h; exact absurd h (by simp)
    | some pr => simp

theorem removeClassGo_hasClass_false {cls : List Char} (hne : cls ≠ []) :
    ∀ (f : Nat) (s : List Char), s.length < f →
      hasClass (removeClassGo f s cls) cls = false := by
  intro f
  induction f with
  | zero => intro s hs; exact absurd hs (by omega)
  | succ f ih =>
    intro s hs
    by_cases hg : hasClass s cls = true
    · have hrf := hasClass_replaceFirst_isSome hg
      obtain ⟨r, hr⟩ := Option.isSome_iff_exists.mp hrf
      have hdec := replaceFirst_some_length hne hr
      simp only [removeClassGo]
      rw [if_pos ⟨hne, hg⟩, hr]
      simp only [Option.getD_some]
      by_cases hg2 : hasClass (trim r) cls = true
      · rw [if_pos hg2]
        exact ih (trim r) (by omega)
      · rw [if_neg hg2]
        cases hx : hasClass (trim r) cls
        · rfl
        · exact absurd hx hg2
    · simp only [removeClassGo]
      rw [if_neg (fun hcon => hg hcon.2)]
      cases hx : hasClass s cls
      · rfl
      · exact absurd hx hg

theorem removeClass_hasClass_false {s cls : List Char} (hne : cls ≠ []) :
    hasClass (removeClass s cls) cls = false :=
  removeClassGo_hasClass_false hne (s.length + 1) s (by omega)

theorem removeClass_of_not_hasClass {s cls : List Char} (h : hasClass s cls = false) :
    removeClass s cls = s := by
  unfold removeClass
  simp only [removeClassGo]
  rw [if_neg (fun hcon => by rw [h] at hcon; exact Bool.noConfusion hcon.2)]

theorem removeClass_nil_cls (s : List Char) : removeClass s [] = s := by
  unfold removeClass
  simp only [removeClassGo]
  rw [if_neg (fun hcon => hcon.1 rfl)]

theorem removeClassGo_eq_trim {cls : List Char} (hne : cls ≠ []) :
    ∀ (f : Nat) (s : List Char), s.length < f → hasClass s cls = true →
      ∃ u, removeClassGo f s cls = trim u := by
  intro f
  induction f with
  | zero => intro s hs; exact absurd hs (by omega)
  | succ f ih =>
    intro s hs hg
    have hrf := hasClass_replaceFirst_isSome hg
    obtain ⟨r, hr⟩ := Option.isSome_iff_exists.mp hrf
    have hdec := replaceFirst_some_length hne hr
    simp only [removeClassGo]
    rw [if_pos ⟨hne, hg⟩, hr]
    simp only [Option.getD_some]
    by_cases hg2 : hasClass (trim r) cls = true
    · rw [if_pos hg2]
      exact ih (trim r) (by omega) hg2
    · rw [if_neg hg2]
      exact ⟨r, rfl⟩

theorem removeClass_eq_trim {s cls : List Char} (hne : cls ≠ [])
    (hg : hasClass s cls = true) : ∃ u, removeClass s cls = trim u :=
  removeClassGo_eq_trim hne (s.length + 1) s (by omega) hg

/-- No leading and no trailing whitespace. -/
def noEdgeWs (l : List Char) : Bool :=
  (match l.head? with
   | none => true
   | some d => !jsWs d) &&
  (match l.getLast? with
   | none => true
   | some d => !jsWs d)

theorem head?_dropWhile_nonws {p : Char → Bool} {l : List Char} {d : Char}
    (h : (l.dropWhile p).head? = some d) : p d = false := by
  cases hdr : l.dropWhile p with
  | nil => rw [hdr] at h; exact absurd h (by simp)
  | cons e t =>
    rw [hdr] at h
    simp only [List.head?_cons, Option.some.injEq] at h
    exact h ▸ head_dropWhile_nonws hdr

theorem getLast?_dropWhile_of_ne_nil {p : Char → Bool} {l : List Char}
    (h : l.dropWhile p ≠ []) : (l.dropWhile p).getLast? = l.getLast? := by
  conv_rhs => rw [← List.takeWhile_append_dropWhile p l]
  exact (List.getLast?_append_of_ne_nil _ h).symm

theorem trim_noEdgeWs (s : List Char) : noEdgeWs (trim s) = true := by
  unfold noEdgeWs trim
  rw [List.head?_reverse, List.getLast?_reverse]
  refine (Bool.and_eq_true _ _).mpr ⟨?_, ?_⟩
  · by_cases hX : ((s.dropWhile jsWs).reverse.dropWhile jsWs) = []
    · rw [hX]
      rfl
    · rw [getLast?_dropWhile_of_ne_nil hX, List.getLast?_reverse]
      cases hh : (s.dropWhile jsWs).head? with
      | none => rfl
      | some d =>
        have := head?_dropWhile_nonws hh
        simp [this]
  · cases hh : ((s.dropWhile jsWs).reverse.dropWhile jsWs).head? with
    | none => rfl
    | some d =>
      have := head?_dropWhile_nonws hh
      simp [this]

/-! ### Behaviour of `addClass` -/

theorem words_addClass_of_not_hasClass {s n : List Char} (hp : plainToken n = true)
    (hg : hasClass s n = false) : words (addClass s n) = words s ++ [n] := by
  have hne := plainToken_ne_nil hp
  have hnw := plainToken_nonws hp
  unfold addClass
  rw [if_neg (fun hcon => by rw [hg] at hcon; exact Bool.noConfusion hcon)]
  rw [words_trim]
  exact words_append_ws_word (by decide) hnw hne

theorem addClass_hasClass {s n : List Char} (hp : plainToken n = true) :
    hasClass (addClass s n) n = true := by
  by_cases hg : hasClass s n = true
  · unfold addClass
    rw [if_pos hg]
    exact hg
  · have hg' : hasClass s n = false := by
      cases hx : hasClass s n
      · rfl
      · exact absurd hx hg
    rw [hasClass_iff_mem_words hp, words_addClass_of_not_hasClass hp hg']
    exact List.mem_append_right _ (List.mem_cons_self _ _)

theorem addClass_def (s n : List Char) :
    addClass s n = if hasClass s n = true then s else trim (s ++ ' ' :: n) := rfl

theorem addClass_idem {s n : List Char} (hp : plainToken n = true) :
    addClass (addClass s n) n = addClass s n := by
  rw [addClass_def (addClass s n) n, if_pos (addClass_hasClass hp)]

theorem addClass_count {s n : List Char} (hp : plainToken n = true)
    (h : List.count n (words s) ≤ 1) :
    List.count n (words (addClass s n)) ≤ 1 := by
  by_cases hg : hasClass s n = true
  · unfold addClass
    rw [if_pos hg]
    exact h
  · have hg' : hasClass s n = false := by
      cases hx : hasClass s n
      · rfl
      · exact absurd hx hg
    rw [words_addClass_of_not_hasClass hp hg', List.count_append]
    have hmem : n ∉ words s := fun hmem =>
      hg ((hasClass_iff_mem_words hp s).mpr hmem)
    rw [List.count_eq_zero.mpr hmem, List.count_singleton_self]

/-! ### Claim theorems for the class-string operations -/

/-- C7: `hasClass` returns `true` iff the class name appears as an exact
whitespace-bounded token of the class attribute; in particular `"foo"` is
not found inside `"foobar"`. -/
theorem claim_C7_hasClass_token (s n : List Char) (hp : plainToken n = true) :
    (hasClass s n = true ↔ n ∈ words s) ∧
    hasClass "foobar".toList "foo".toList = false :=
  ⟨hasClass_iff_mem_words hp s, by decide⟩

/-- Witness for C7 at a concrete attribute and class name. -/
theorem claim_C7_hasClass_token_witness :
    plainToken "foo".toList = true ∧
    ((hasClass "a foobar".toList "foo".toList = true ↔
        "foo".toList ∈ words "a foobar".toList) ∧
      hasClass "foobar".toList "foo".toList = false) :=
  ⟨by decide, claim_C7_hasClass_token "a foobar".toList "foo".toList (by decide)⟩

/-- C3: for a plain non-empty class name, `removeClass` removes every
whitespace-delimited occurrence (adjacent duplicates included, e.g.
`"a foo foo b"` becomes `"a b"`), the result is re-trimmed with the
whitespace around removal sites collapsed, and for an empty or absent
class name the attribute is unchanged. -/
theorem claim_C3_removeClass (s n : List Char) :
    (n = [] → removeClass s n = s) ∧
    (plainToken n = true →
      n ∉ words (removeClass s n) ∧
      (n ∉ words s → removeClass s n = s) ∧
      (n ∈ words s → noEdgeWs (removeClass s n) = true)) ∧
    removeClass "a foo foo b".toList "foo".toList = "a b".toList := by
  refine ⟨?_, ?_, by decide⟩
  · intro h
    subst h
    exact removeClass_nil_cls s
  · intro hp
    have hne := plainToken_ne_nil hp
    refine ⟨?_, ?_, ?_⟩
    · intro hmem
      have hc := removeClass_hasClass_false (s := s) hne
      have := (hasClass_iff_mem_words hp (removeClass s n)).mpr hmem
      rw [hc] at this
      exact Bool.noConfusion this
    · intro hmem
      apply removeClass_of_not_hasClass
      cases hx : hasClass s n
      · rfl
      · exact absurd ((hasClass_iff_mem_words hp s).mp hx) hmem
    · intro hmem
      have hg : hasClass s n = true := (hasClass_iff_mem_words hp s).mpr hmem
      obtain ⟨u, hu⟩ := removeClass_eq_trim hne hg
      rw [hu]
      exact trim_noEdgeWs u

/-- Witness for C3 at a concrete attribute and class name. -/
theorem claim_C3_removeClass_witness :
    plainToken "foo".toList = true ∧
    "foo".toList ∉ words (removeClass "x foo y".toList "foo".toList) :=
  ⟨by decide, ((claim_C3_removeClass "x foo y".toList "foo".toList).2.1 (by decide)).1⟩

/-- C5 counterexample: with `C = "a a"` (a pre-existing duplicate) the class
`"a"` still appears twice after `addClass`, so "no duplicate of n appears
in the resulting attribute" fails as universally stated. -/
theorem claim_C5_counterexample :
    addClass "a a".toList "a".toList = "a a".toList ∧
    List.count "a".toList (words (addClass "a a".toList "a".toList)) = 2 := by
  constructor
  · decide
  · decide

/-- C5 (amended): after `addClass(C,n)` the class is present and `addClass`
is idempotent, for every attribute string; and `addClass` introduces no
duplicate — if `n` occurs at most once as a token of `C` it occurs at most
once afterwards. -/
theorem claim_C5_addClass (s n : List Char) (hp : plainToken n = true) :
    hasClass (addClass s n) n = true ∧
    addClass (addClass s n) n = addClass s n ∧
    (List.count n (words s) ≤ 1 → List.count n (words (addClass s n)) ≤ 1) :=
  ⟨addClass_hasClass hp, addClass_idem hp, addClass_count hp⟩

/-- Witness for C5 (amended) at a concrete attribute and class name. -/
theorem claim_C5_addClass_witness :
    plainToken "c".toList = true ∧
    (hasClass (addClass "a b".toList "c".toList) "c".toList = true ∧
      addClass (addClass "a b".toList "c".toList) "c".toList =
        addClass "a b".toList "c".toList ∧
      (List.count "c".toList (words "a b".toList) ≤ 1 →
        List.count "c".toList (words (addClass "a b".toList "c".toList)) ≤ 1)) :=
  ⟨by decide, claim_C5_addClass "a b".toList "c".toList (by decide)⟩

/-- C6: adding then removing a class leaves an attribute on which
`hasClass` is `false`. -/
theorem claim_C6_remove_after_add (s n : List Char) (hp : plainToken n = true) :
    hasClass (removeClass (addClass s n) n) n = false :=
  removeClass_hasClass_false (plainToken_ne_nil hp)

/-- Witness for C6 at a concrete attribute and class name. -/
theorem claim_C6_remove_after_add_witness :
    plainToken "foo".toList = true ∧
    hasClass (removeClass (addClass "a b".toList "foo".toList) "foo".toList)
      "foo".toList = false :=
  ⟨by decide, claim_C6_remove_after_add "a b".toList "foo".toList (by decide)⟩

/-! ### `micro.util.template` (micro.js:286-290)

`template.replace(/\{\{([\w]+)\}\}/ig, function(a, b) { return data[b] || ''; })`:
each `{{key}}` placeholder (key = one or more word characters) is replaced
by `data[key]` coerced to a string when that value is truthy, and by the
empty string when the key is missing or its value is falsy. -/

/-- A JavaScript value as it can appear in a template data object. -/
inductive JsVal
  | vstr (s : List Char)
  | vnum (n : Int)
  | vbool (b : Bool)
  | vnull
  deriving DecidableEq

/-- JavaScript truthiness of a data value. -/
def truthy : JsVal → Bool
  | .vstr s => !s.isEmpty
  | .vnum n => !(n = 0 : Bool)
  | .vbool b => b
  | .vnull => false

/-- JavaScript string coercion of a data value. -/
def jsToString : JsVal → List Char
  | .vstr s => s
  | .vnum n => (toString n).toList
  | .vbool b => if b then "true".toList else "false".toList
  | .vnull => "null".toList

/-- Property access `data[b]` on an object literal. -/
def getProp : List (List Char × JsVal) → List Char → Option JsVal
  | [], _ => none
  | (k, v) :: t, key => if k = key then some v else getProp t key

/-- The value of `data[b] || ''`: the string substituted for a placeholder. -/
def substVal (d : List (List Char × JsVal)) (key : List Char) : List Char :=
  match getProp d key with
  | none => []
  | some v => if truthy v then jsToString v else []

/-- The regex word class `[\w]` (ASCII letters, digits, underscore). -/
def wordChar (c : Char) : Bool := c.isAlphanum || c = '_'

/-- One attempt of the pattern `\{\{([\w]+)\}\}` at the current position:
`some (key, rest)` when the input starts with `{{`, a non-empty maximal
word-character run, and `}}`, with `rest` the input after the match. -/
def matchPlaceholder : List Char → Option (List Char × List Char)
  | c1 :: c2 :: rest =>
    if c1 = '{' ∧ c2 = '{' ∧ rest.takeWhile wordChar ≠ [] ∧
        (rest.dropWhile wordChar).take 2 = ['}', '}'] then
      some (rest.takeWhile wordChar, (rest.dropWhile wordChar).drop 2)
    else none
  | _ => none

/-- The scan of the global regex replace: try a match at each position,
consuming the match on success and advancing one character on failure.
Fuel-driven; `template` supplies provably sufficient fuel. -/
def templateGo : Nat → List Char → List (List Char × JsVal) → List Char
  | 0, s, _ => s
  | _ + 1, [], _ => []
  | f + 1, c :: t, d =>
    match matchPlaceholder (c :: t) with
    | some (key, rest2) => substVal d key ++ templateGo f rest2 d
    | none => c :: templateGo f t d

/-- The function `micro.util.template` (micro.js:286-290). -/
def template (s : List Char) (d : List (List Char × JsVal)) : List Char :=
  templateGo (s.length + 1) s d

example : template "Replace this \x7b\x7bk\x7d\x7d.".toList [("k".toList, JsVal.vstr "key".toList)]
    = "Replace this key.".toList := by decide
example : template "Hi \x7b\x7bname\x7d\x7d".toList [("name".toList, JsVal.vstr "Sam".toList)]
    = "Hi Sam".toList := by decide
example : template "Hi \x7b\x7bx\x7d\x7d".toList [] = "Hi ".toList := by decide
example : template "\x7b\x7bn\x7d\x7d".toList [("n".toList, JsVal.vnum 0)] = "".toList := by decide
example : template "\x7b\x7b\x7bx\x7d\x7d\x7d".toList [("x".toList, JsVal.vstr "v".toList)]
    = "\x7bv\x7d".toList := by decide

theorem matchPlaceholder_some_length {s key rest2 : List Char}
    (h : matchPlaceholder s = some (key, rest2)) : rest2.length + 5 ≤ s.length := by
  cases s with
  | nil => exact absurd h (by simp [matchPlaceholder])
  | cons c1 s1 =>
    cases s1 with
    | nil => exact absurd h (by simp [matchPlaceholder])
    | cons c2 rest =>
      by_cases hcond : c1 = '{' ∧ c2 = '{' ∧ rest.takeWhile wordChar ≠ [] ∧
          (rest.dropWhile wordChar).take 2 = ['}', '}']
      · simp only [matchPlaceholder] at h
        rw [if_pos hcond] at h
        simp only [Option.some.injEq, Prod.mk.injEq] at h
        obtain ⟨h1, h2⟩ := h
        have htk : 1 ≤ (rest.takeWhile wordChar).length := by
          have := hcond.2.2.1
          cases hx : rest.takeWhile wordChar with
          | nil => exact absurd hx this
          | cons _ _ => simp [hx]
        have hdw : 2 ≤ (rest.dropWhile wordChar).length := by
          have := congrArg List.length hcond.2.2.2
          rw [List.length_take] at this
          simp only [List.length_cons, List.length_nil] at this
          omega
        have hrest : (rest.takeWhile wordChar).length + (rest.dropWhile wordChar).length
            = rest.length := by
          have := congrArg List.length (List.takeWhile_append_dropWhile wordChar rest)
          rw [List.length_append] at this
          exact this
        have hr2 : rest2.length = (rest.dropWhile wordChar).length - 2 := by
          rw [← h2, List.length_drop]
        simp only [List.length_cons]
        omega
      · simp only [matchPlaceholder] at h
        rw [if_neg hcond] at h
        exact absurd h (by simp)

theorem templateGo_fuel (d : List (List Char × JsVal)) :
    ∀ (f g : Nat) (s : List Char), s.length < f → s.length < g →
      templateGo f s d = templateGo g s d := by
  intro f
  induction f with
  | zero => intro g s hf; exact absurd hf (by omega)
  | succ f ih =>
    intro g s hf hg
    cases g with
    | zero => exact absurd hg (by omega)
    | succ g =>
      cases s with
      | nil => rfl
      | cons c t =>
        cases hm : matchPlaceholder (c :: t) with
        | some pr =>
          obtain ⟨key, rest2⟩ := pr
          have hlen := matchPlaceholder_some_length hm
          simp only [List.length_cons] at hf hg hlen
          simp only [templateGo, hm]
          congr 1
          exact ih g rest2 (by omega) (by omega)
        | none =>
          simp only [List.length_cons] at hf hg
          simp only [templateGo, hm]
          congr 1
          exact ih g t (by omega) (by omega)

theorem template_cons_some {c : Char} {t key rest2 : List Char}
    (d : List (List Char × JsVal)) (h : matchPlaceholder (c :: t) = some (key, rest2)) :
    template (c :: t) d = substVal d key ++ template rest2 d := by
  have hlen := matchPlaceholder_some_length h
  simp only [List.length_cons] at hlen
  unfold template
  simp only [templateGo, h]
  congr 1
  exact templateGo_fuel d _ _ rest2 (by simp; omega) (by omega)

theorem template_cons_none {c : Char} {t : List Char}
    (d : List (List Char × JsVal)) (h : matchPlaceholder (c :: t) = none) :
    template (c :: t) d = c :: template t d := by
  unfold template
  simp only [templateGo, h, List.length_cons]

theorem matchPlaceholder_not_brace {c : Char} (hc : c ≠ '{') (t : List Char) :
    matchPlaceholder (c :: t) = none := by
  cases t with
  | nil => simp [matchPlaceholder]
  | cons c2 rest =>
    simp only [matchPlaceholder]
    rw [if_neg (fun hcon => hc hcon.1)]

theorem matchPlaceholder_exact {key post : List Char} (hkey : key ≠ [])
    (hkeyw : ∀ c ∈ key, wordChar c = true) :
    matchPlaceholder ('{' :: '{' :: (key ++ '}' :: '}' :: post)) = some (key, post) := by
  have hsplit := takeWhile_dropWhile_append (p := wordChar) hkeyw
    (Or.inr ⟨'}', '}' :: post, rfl, by decide⟩)
  show (if ('{' : Char) = '{' ∧ ('{' : Char) = '{' ∧
      (key ++ '}' :: '}' :: post).takeWhile wordChar ≠ [] ∧
      ((key ++ '}' :: '}' :: post).dropWhile wordChar).take 2 = ['}', '}'] then
    some ((key ++ '}' :: '}' :: post).takeWhile wordChar,
      ((key ++ '}' :: '}' :: post).dropWhile wordChar).drop 2)
  else none) = some (key, post)
  rw [hsplit.1, hsplit.2]
  rw [if_pos ⟨rfl, rfl, hkey, rfl⟩]
  rfl

theorem template_placeholder (pre key post : List Char) (d : List (List Char × JsVal))
    (hpre : ∀ c ∈ pre, c ≠ '{') (hkey : key ≠ [])
    (hkeyw : ∀ c ∈ key, wordChar c = true) :
    template (pre ++ '{' :: '{' :: (key ++ '}' :: '}' :: post)) d =
      pre ++ substVal d key ++ template post d := by
  induction pre with
  | nil =>
    simp only [List.nil_append]
    rw [template_cons_some d (matchPlaceholder_exact hkey hkeyw)]
  | cons a pre' ih =>
    have ha : a ≠ '{' := hpre a (List.mem_cons_self a pre')
    rw [List.cons_append, template_cons_none d (matchPlaceholder_not_brace ha _),
      ih (fun c hc => hpre c (List.mem_cons_of_mem a hc))]
    simp

/-- C9 counterexample: a key present with the falsy value `0` is rendered
as the empty string, not as the data value's string form `"0"`. -/
theorem claim_C9_counterexample :
    template "\x7b\x7bn\x7d\x7d".toList [("n".toList, JsVal.vnum 0)] = [] ∧
    jsToString (JsVal.vnum 0) = "0".toList ∧
    "0".toList ≠ ([] : List Char) := by
  refine ⟨by decide, by decide, by decide⟩

/-- C9 (amended): `template` replaces each `{{key}}` placeholder with the
string form of the data value when that value is truthy; an absent key —
or a present key with a falsy value — is substituted by the empty string
(`template "Hi \x7b\x7bx\x7d\x7d" {} = "Hi "`). -/
theorem claim_C9_template (pre key post : List Char) (d : List (List Char × JsVal))
    (hpre : ∀ c ∈ pre, c ≠ '{') (hkey : key ≠ [])
    (hkeyw : ∀ c ∈ key, wordChar c = true) :
    template (pre ++ '{' :: '{' :: (key ++ '}' :: '}' :: post)) d =
      pre ++ substVal d key ++ template post d ∧
    (∀ v, getProp d key = some v → truthy v = true → substVal d key = jsToString v) ∧
    (getProp d key = none → substVal d key = []) ∧
    template "Hi \x7b\x7bx\x7d\x7d".toList [] = "Hi ".toList := by
  refine ⟨template_placeholder pre key post d hpre hkey hkeyw, ?_, ?_, by decide⟩
  · intro v hv ht
    simp only [substVal, hv]
    rw [if_pos ht]
  · intro hv
    simp only [substVal, hv]

/-- Witness for C9 (amended) at a concrete template and data object. -/
theorem claim_C9_template_witness :
    (∀ c ∈ "Hi ".toList, c ≠ '{') ∧ "x".toList ≠ [] ∧
    (∀ c ∈ "x".toList, wordChar c = true) ∧
    template ("Hi ".toList ++ '{' :: '{' :: ("x".toList ++ '}' :: '}' :: []))
        [("x".toList, JsVal.vstr "Sam".toList)] =
      "Hi ".toList ++ substVal [("x".toList, JsVal.vstr "Sam".toList)] "x".toList ++
        template [] [("x".toList, JsVal.vstr "Sam".toList)] :=
  ⟨by decide, by decide, by decide,
    (claim_C9_template "Hi ".toList "x".toList [] [("x".toList, JsVal.vstr "Sam".toList)]
      (by decide) (by decide) (by decide)).1⟩

/-- C10: every falsy value — `0`, `false`, the empty string, `null` — is
rendered as the empty string (the placeholder vanishes), not as the value's
string form; e.g. `template "\x7b\x7bn\x7d\x7d" {n:0} = ""`. -/
theorem claim_C10_template_falsy (pre key post : List Char)
    (d : List (List Char × JsVal)) (v : JsVal)
    (hv : getProp d key = some v) (hf : truthy v = false)
    (hpre : ∀ c ∈ pre, c ≠ '{') (hkey : key ≠ [])
    (hkeyw : ∀ c ∈ key, wordChar c = true) :
    template (pre ++ '{' :: '{' :: (key ++ '}' :: '}' :: post)) d =
      pre ++ template post d ∧
    truthy (JsVal.vnum 0) = false ∧ truthy (JsVal.vbool false) = false ∧
    truthy (JsVal.vstr []) = false ∧ truthy JsVal.vnull = false ∧
    template "\x7b\x7bn\x7d\x7d".toList [("n".toList, JsVal.vnum 0)] = [] := by
  refine ⟨?_, by decide, by decide, by decide, by decide, by decide⟩
  have hsub : substVal d key = [] := by
    simp only [substVal, hv, hf]
    simp
  rw [template_placeholder pre key post d hpre hkey hkeyw, hsub]
  simp

/-- Witness for C10 at a concrete template and data object. -/
theorem claim_C10_template_falsy_witness :
    getProp [("n".toList, JsVal.vnum 0)] "n".toList = some (JsVal.vnum 0) ∧
    truthy (JsVal.vnum 0) = false ∧
    template ([] ++ '{' :: '{' :: ("n".toList ++ '}' :: '}' :: []))
        [("n".toList, JsVal.vnum 0)] =
      [] ++ template [] [("n".toList, JsVal.vnum 0)] :=
  ⟨by decide, by decide,
    (claim_C10_template_falsy [] "n".toList [] [("n".toList, JsVal.vnum 0)]
      (JsVal.vnum 0) (by decide) (by decide) (by decide) (by decide) (by decide)).1⟩

/-! ### `micro.util.ajax` (micro.js:336-363)

The transport is chosen from `window.XMLHttpRequest` or
`window.ActiveXObject`; with neither, `cfg.failure` (when supplied) is
invoked and the function returns without opening a request.  Otherwise the
`onreadystatechange` handler fires the callbacks: on `readyState === 4`,
status `200` invokes `cfg.success(responseText)` and any other status
invokes `cfg.failure` when supplied.  The readystate events delivered by
the transport are modelled as a list. -/

/-- A `readystatechange` delivery from the transport. -/
structure XhrEvent where
  readyState : Nat
  status : Nat
  responseText : List Char
  deriving DecidableEq

/-- A callback invocation observed by the caller of `ajax`. -/
inductive AjaxCall
  | success (body : List Char)
  | failure
  deriving DecidableEq

/-- The calls made by the `onreadystatechange` handler for one event
(micro.js:351-359). -/
def ajaxHandleEvent (hasFailure : Bool) (e : XhrEvent) : List AjaxCall :=
  if e.readyState = 4 then
    if e.status = 200 then [AjaxCall.success e.responseText]
    else if hasFailure then [AjaxCall.failure] else []
  else []

/-- The function `micro.util.ajax`: returns the list of callback invocations and whether
a request was opened and sent, given transport availability, whether
`cfg.failure` was supplied, and the readystate events the transport
delivers. -/
def ajax (hasXHR hasActiveX hasFailure : Bool) (events : List XhrEvent) :
    List AjaxCall × Bool :=
  if hasXHR || hasActiveX then
    (events.foldr (fun e acc => ajaxHandleEvent hasFailure e ++ acc) [], true)
  else
    ((if hasFailure then [AjaxCall.failure] else []), false)

theorem ajax_success_mem {hasFailure : Bool} {events : List XhrEvent} {b : List Char} :
    AjaxCall.success b ∈
        events.foldr (fun e acc => ajaxHandleEvent hasFailure e ++ acc) [] ↔
      ∃ e ∈ events, e.readyState = 4 ∧ e.status = 200 ∧ e.responseText = b := by
  induction events with
  | nil => simp
  | cons e t ih =>
    simp only [List.foldr_cons, List.mem_append, ih, List.mem_cons]
    constructor
    · intro h
      rcases h with h | ⟨e', he', hp⟩
      · refine ⟨e, Or.inl rfl, ?_⟩
        unfold ajaxHandleEvent at h
        by_cases h4 : e.readyState = 4
        · rw [if_pos h4] at h
          by_cases h200 : e.status = 200
          · rw [if_pos h200] at h
            simp at h
            exact ⟨h4, h200, h.symm⟩
          · rw [if_neg h200] at h
            by_cases hfb : hasFailure = true
            · rw [if_pos hfb] at h
              simp at h
            · rw [if_neg hfb] at h
              simp at h
        · rw [if_neg h4] at h
          simp at h
      · exact ⟨e', Or.inr he', hp⟩
    · intro ⟨e', he', h4, h200, hb⟩
      rcases he' with he' | he'
      · subst he'
        left
        unfold ajaxHandleEvent
        rw [if_pos h4, if_pos h200, hb]
        exact List.mem_singleton.mpr rfl
      · exact Or.inr ⟨e', he', h4, h200, hb⟩

theorem ajax_failure_mem {hasFailure : Bool} {events : List XhrEvent} :
    AjaxCall.failure ∈
        events.foldr (fun e acc => ajaxHandleEvent hasFailure e ++ acc) [] ↔
      hasFailure = true ∧ ∃ e ∈ events, e.readyState = 4 ∧ e.status ≠ 200 := by
  induction events with
  | nil => simp
  | cons e t ih =>
    simp only [List.foldr_cons, List.mem_append, ih, List.mem_cons]
    constructor
    · intro h
      rcases h with h | ⟨hf, e', he', hp⟩
      · unfold ajaxHandleEvent at h
        by_cases h4 : e.readyState = 4
        · rw [if_pos h4] at h
          by_cases h200 : e.status = 200
          · rw [if_pos h200] at h
            simp at h
          · rw [if_neg h200] at h
            by_cases hfb : hasFailure = true
            · exact ⟨hfb, e, Or.inl rfl, h4, h200⟩
            · rw [if_neg hfb] at h
              simp at h
        · rw [if_neg h4] at h
          simp at h
      · exact ⟨hf, e', Or.inr he', hp⟩
    · intro ⟨hf, e', he', h4, h200⟩
      rcases he' with he' | he'
      · subst he'
        left
        unfold ajaxHandleEvent
        rw [if_pos h4, if_neg h200, if_pos hf]
        exact List.mem_singleton.mpr rfl
      · exact Or.inr ⟨hf, e', he', h4, h200⟩

/-- C4: the success callback is invoked with the response body exactly when
a completed (`readyState = 4`) status `200` is delivered; any other
completed status invokes the failure callback iff one is supplied; with no
transport the failure callback (when supplied) is invoked and nothing is
sent; with no failure callback an erroring request invokes no callback at
all. -/
theorem claim_C4_ajax (hasXHR hasActiveX hasFailure : Bool)
    (events : List XhrEvent) :
    (∀ b, AjaxCall.success b ∈ (ajax hasXHR hasActiveX hasFailure events).1 ↔
      ((hasXHR || hasActiveX) = true ∧
        ∃ e ∈ events, e.readyState = 4 ∧ e.status = 200 ∧ e.responseText = b)) ∧
    (AjaxCall.failure ∈ (ajax hasXHR hasActiveX hasFailure events).1 ↔
      (hasFailure = true ∧
        (((hasXHR || hasActiveX) = true ∧
            ∃ e ∈ events, e.readyState = 4 ∧ e.status ≠ 200) ∨
          (hasXHR || hasActiveX) = false))) ∧
    (ajax hasXHR hasActiveX hasFailure events).2 = (hasXHR || hasActiveX) ∧
    (hasFailure = false → (hasXHR || hasActiveX) = true →
      (∀ e ∈ events, ¬(e.readyState = 4 ∧ e.status = 200)) →
      (ajax hasXHR hasActiveX hasFailure events).1 = []) := by
  by_cases ht : (hasXHR || hasActiveX) = true
  · refine ⟨?_, ?_, ?_, ?_⟩
    · intro b
      unfold ajax
      rw [if_pos ht]
      simpa [ht] using ajax_success_mem
    · unfold ajax
      rw [if_pos ht]
      simp only [ht]
      constructor
      · intro h
        obtain ⟨hf, hp⟩ := ajax_failure_mem.mp h
        exact ⟨hf, Or.inl ⟨by trivial, hp⟩⟩
      · intro ⟨hf, h⟩
        rcases h with ⟨_, hp⟩ | h
        · exact ajax_failure_mem.mpr ⟨hf, hp⟩
        · exact absurd h (by simp [ht])
    · unfold ajax
      rw [if_pos ht, ht]
    · intro hf _ hno
      unfold ajax
      rw [if_pos ht]
      simp only []
      cases hcalls : events.foldr (fun e acc => ajaxHandleEvent hasFailure e ++ acc) [] with
      | nil => rfl
      | cons call rest =>
        exfalso
        have hmem : call ∈ events.foldr (fun e acc => ajaxHandleEvent hasFailure e ++ acc) [] := by
          rw [hcalls]
          exact List.mem_cons_self _ _
        cases call with
        | success b =>
          obtain ⟨e, he, h4, h200, _⟩ := ajax_success_mem.mp hmem
          exact hno e he ⟨h4, h200⟩
        | failure =>
          obtain ⟨hfc, _⟩ := ajax_failure_mem.mp hmem
          rw [hf] at hfc
          exact Bool.noConfusion hfc
  · have ht' : (hasXHR || hasActiveX) = false := by
      cases hx : hasXHR || hasActiveX
      · rfl
      · exact absurd hx ht
    refine ⟨?_, ?_, ?_, ?_⟩
    · intro b
      unfold ajax
      rw [if_neg (fun hcon => by rw [ht'] at hcon; exact Bool.noConfusion hcon)]
      by_cases hfb : hasFailure = true <;> simp [hfb, ht']
    · unfold ajax
      rw [if_neg (fun hcon => by rw [ht'] at hcon; exact Bool.noConfusion hcon)]
      by_cases hfb : hasFailure = true <;> simp [hfb, ht']
    · unfold ajax
      rw [if_neg (fun hcon => by rw [ht'] at hcon; exact Bool.noConfusion hcon), ht']
    · intro _ hcon
      rw [ht'] at hcon
      exact Bool.noConfusion hcon

/-- Witness for C4: one transport, a single completed 404 event with a
failure callback, and the no-transport case checked concretely. -/
theorem claim_C4_ajax_witness :
    (AjaxCall.failure ∈
        (ajax true false true [⟨4, 404, "err".toList⟩]).1 ↔
      (true = true ∧
        (((true || false) = true ∧
            ∃ e ∈ [(⟨4, 404, "err".toList⟩ : XhrEvent)],
              e.readyState = 4 ∧ e.status ≠ 200) ∨
          (true || false) = false))) :=
  (claim_C4_ajax true false true [⟨4, 404, "err".toList⟩]).2.1

example : ajax true false true [⟨4, 200, "ok".toList⟩] =
    ([AjaxCall.success "ok".toList], true) := by decide
example : ajax true false true [⟨4, 404, "err".toList⟩] =
    ([AjaxCall.failure], true) := by decide
example : ajax false false true [] = ([AjaxCall.failure], false) := by decide
example : ajax false false false [] = ([], false) := by decide
example : ajax true false false [⟨4, 500, "err".toList⟩] = ([], true) := by decide

/-! ### `micro.event.onReady` (micro.js:206-261)

The host environment is abstracted by which eventing API exists
(`document.addEventListener` vs `attachEvent`), the load state at call
time, and `doScroll`/top-level availability.  Handler identity matters:
`detachEvent('onreadystatechange', ready)` (micro.js:235) passes `ready`,
but the handler registered on `onreadystatechange` (micro.js:246) is an
anonymous wrapper, so that detach removes nothing.  The completion signals
delivered after the call are modelled as a list. -/

structure ReadyEnv where
  hasAddEventListener : Bool
  readyStateComplete : Bool
  hasDoScroll : Bool
  toplevel : Bool
  deriving DecidableEq

/-- Identity of a registered handler function. -/
inductive RHandler
  | ready
  | rscWrapper
  deriving DecidableEq

/-- A registration slot (event name on document or window). -/
inductive RSlot
  | domContentLoaded
  | winLoad
  | onReadyStateChange
  | onLoadLegacy
  deriving DecidableEq

/-- Observable state of one `onReady` call: the latch, the number of times
the user callback has run, the registered listeners, and whether the IE
scroll poll is armed. -/
structure RState where
  isReady : Bool
  count : Nat
  listeners : List (RSlot × RHandler)
  scrollArmed : Bool
  deriving DecidableEq

/-- The body of `_onReady` (micro.js:240-260): synchronous callback when the
load state is already complete, otherwise registration of the primary and
failsafe listeners (and, on the legacy path, the scroll poll). -/
def onReadyInit (env : ReadyEnv) : RState :=
  if env.readyStateComplete then
    { isReady := false, count := 1, listeners := [], scrollArmed := false }
  else if env.hasAddEventListener then
    { isReady := false, count := 0,
      listeners := [(RSlot.domContentLoaded, RHandler.ready), (RSlot.winLoad, RHandler.ready)],
      scrollArmed := false }
  else
    { isReady := false, count := 0,
      listeners := [(RSlot.onReadyStateChange, RHandler.rscWrapper),
        (RSlot.onLoadLegacy, RHandler.ready)],
      scrollArmed := env.hasDoScroll && env.toplevel }

/-- The function `cleanup(ev)` (micro.js:230-238): on the modern path removes both
listeners; on the legacy path it detaches only when called with an event
(`don't run if it was the setTimeout`), and the `onreadystatechange` detach
passes `ready` although the registered handler is the anonymous wrapper, so
only the legacy `onload` listener is actually removed. -/
def readyCleanup (env : ReadyEnv) (evPresent : Bool) (st : RState) : RState :=
  if env.hasAddEventListener then
    { st with listeners := st.listeners.filter (fun p =>
        !(p == (RSlot.domContentLoaded, RHandler.ready)) &&
        !(p == (RSlot.winLoad, RHandler.ready))) }
  else if evPresent then
    { st with listeners := st.listeners.filter (fun p =>
        !(p == (RSlot.onReadyStateChange, RHandler.ready)) &&
        !(p == (RSlot.onLoadLegacy, RHandler.ready))) }
  else st

/-- The function `ready(ev)` (micro.js:224-228): `callback(); cleanup(ev); isReady = true`.
Note there is no `isReady` guard inside `ready` itself. -/
def readyFn (env : ReadyEnv) (evPresent : Bool) (st : RState) : RState :=
  { readyCleanup env evPresent { st with count := st.count + 1 } with isReady := true }

/-- Running a registered handler on delivery; the anonymous
`onreadystatechange` wrapper (micro.js:246-250) calls `ready` only when the
delivered load state is `'complete'`. -/
def runRHandler (env : ReadyEnv) (h : RHandler) (rscComplete : Bool) (st : RState) : RState :=
  match h with
  | .ready => readyFn env true st
  | .rscWrapper => if rscComplete then readyFn env true st else st

/-- A completion signal delivered after the `onReady` call: a host event on
a registration slot (with the load state observed at delivery), or one
firing of the `ieSrollCheck` poll (with whether `doScroll` threw). -/
inductive RSignal
  | event (slot : RSlot) (rscComplete : Bool)
  | scrollTick (doScrollThrows : Bool)
  deriving DecidableEq

/-- Delivering one signal: an event runs the handler registered on its slot
(if any); a scroll tick runs `ieSrollCheck` (micro.js:208-222), which
returns when `isReady` is set, re-arms itself when `doScroll` throws, and
otherwise calls `ready()` with no event argument. -/
def readyStep (env : ReadyEnv) (st : RState) (sig : RSignal) : RState :=
  match sig with
  | .event slot rsc =>
    match st.listeners.find? (fun p => p.1 == slot) with
    | some p => runRHandler env p.2 rsc st
    | none => st
  | .scrollTick throws =>
    if st.scrollArmed then
      if st.isReady then { st with scrollArmed := false }
      else if throws then st
      else { readyFn env false st with scrollArmed := false }
    else st

/-- One `onReady` call followed by a sequence of delivered signals. -/
def readyRun (env : ReadyEnv) (sigs : List RSignal) : RState :=
  sigs.foldl (readyStep env) (onReadyInit env)

/-- The legacy environment: no `addEventListener`, load not complete,
`doScroll` available in a top-level window. -/
def legacyEnv : ReadyEnv :=
  { hasAddEventListener := false, readyStateComplete := false,
    hasDoScroll := true, toplevel := true }

/-- The modern environment with the document still loading. -/
def modernEnv : ReadyEnv :=
  { hasAddEventListener := true, readyStateComplete := false,
    hasDoScroll := false, toplevel := true }

/-- C1 (code evaluated at the failing input): on the legacy path, after the
scroll poll succeeds (callback fired once, but `cleanup` was called without
an event so nothing was detached), a later window `onload` delivery runs
`ready` again — the callback is invoked twice, and likewise a later
`onreadystatechange('complete')` delivery still finds the anonymous
wrapper registered.  The claim's exactly-once guarantee fails. -/
theorem claim_C1_onReady_double_fire :
    (readyRun legacyEnv [RSignal.scrollTick false,
        RSignal.event RSlot.onLoadLegacy true]).count = 2 ∧
    (readyRun legacyEnv [RSignal.scrollTick false,
        RSignal.event RSlot.onReadyStateChange true]).count = 2 ∧
    (readyRun modernEnv [RSignal.event RSlot.domContentLoaded true,
        RSignal.event RSlot.winLoad true]).count = 1 := by
  refine ⟨by decide, by decide, by decide⟩

theorem readyStep_inert (env : ReadyEnv) (st : RState) (hl : st.listeners = [])
    (hs : st.scrollArmed = false) (sig : RSignal) : readyStep env st sig = st := by
  cases sig with
  | event slot rsc => simp [readyStep, hl]
  | scrollTick th => simp [readyStep, hs]

/-- C8: if the host reports the load state `complete` at call time, the
callback runs synchronously during the call, no listeners, polls or timers
are registered, and every signal delivered afterwards is a no-op. -/
theorem claim_C8_onReady_complete (env : ReadyEnv)
    (h : env.readyStateComplete = true) :
    onReadyInit env =
      { isReady := false, count := 1, listeners := [], scrollArmed := false } ∧
    ∀ sigs : List RSignal, readyRun env sigs = onReadyInit env := by
  have hinit : onReadyInit env =
      { isReady := false, count := 1, listeners := [], scrollArmed := false } := by
    unfold onReadyInit
    rw [if_pos h]
  refine ⟨hinit, ?_⟩
  intro sigs
  unfold readyRun
  rw [hinit]
  induction sigs with
  | nil => rfl
  | cons s rest ih =>
    rw [List.foldl_cons, readyStep_inert env _ rfl rfl s]
    exact ih

/-- A host environment whose load state is already complete at call time. -/
def completeEnv : ReadyEnv :=
  { hasAddEventListener := true, readyStateComplete := true,
    hasDoScroll := false, toplevel := true }

/-- Witness for C8 at a concrete already-complete environment. -/
theorem claim_C8_onReady_complete_witness :
    onReadyInit completeEnv =
      { isReady := false, count := 1, listeners := [], scrollArmed := false } ∧
    readyRun completeEnv [RSignal.event RSlot.winLoad true] = onReadyInit completeEnv :=
  ⟨(claim_C8_onReady_complete completeEnv rfl).1,
    (claim_C8_onReady_complete completeEnv rfl).2 [RSignal.event RSlot.winLoad true]⟩

/-! ### `micro.event.delegate`, container path (micro.js:176-198)

The listener installed on the container reads the event's originating
element and calls `micro.util.matches(target, selector)` (micro.js:194).
Property access on a namespace object yields `undefined` when the name is
not among its exports, and calling `undefined` throws a `TypeError`.  The
export lists below are the return objects of `micro.util` (micro.js:366-372)
and `micro.dom` (micro.js:136-143). -/

def microUtilExports : List (List Char) :=
  ["template".toList, "requestAnimFrame".toList, "trim".toList,
    "getWindowHeight".toList, "ajax".toList]

def microDomExports : List (List Char) :=
  ["hasClass".toList, "addClass".toList, "removeClass".toList,
    "toggleClass".toList, "qsa".toList, "matches".toList]

inductive DelegateOutcome
  | callbackInvoked
  | callbackSkipped
  | typeError
  deriving DecidableEq

/-- The body of the listener `_delegate` installs on the container
(micro.js:192-197), for an event whose originating element does or does not
match the selector (`targetMatches`). -/
def delegateContainerHandler (targetMatches : Bool) : DelegateOutcome :=
  if "matches".toList ∈ microUtilExports then
    if targetMatches then DelegateOutcome.callbackInvoked
    else DelegateOutcome.callbackSkipped
  else DelegateOutcome.typeError

/-- C2 (code evaluated at the failing input): the handler references
`micro.util.matches`, but `matches` is exported by `micro.dom`, not
`micro.util`; the lookup yields `undefined` and the call throws, so the
callback is never invoked — even for an originating element that matches
the selector. -/
theorem claim_C2_delegate_wrong_namespace :
    "matches".toList ∉ microUtilExports ∧
    "matches".toList ∈ microDomExports ∧
    delegateContainerHandler true = DelegateOutcome.typeError ∧
    delegateContainerHandler false = DelegateOutcome.typeError ∧
    delegateContainerHandler true ≠ DelegateOutcome.callbackInvoked := by
  refine ⟨by decide, by decide, by decide, by decide, by decide⟩

example : (readyRun legacyEnv [RSignal.event RSlot.onReadyStateChange false]).count = 0 := by
  decide
example : (readyRun legacyEnv [RSignal.scrollTick true, RSignal.scrollTick false]).count = 1 := by
  decide
example : (readyRun modernEnv [RSignal.event RSlot.winLoad true,
    RSignal.event RSlot.domContentLoaded true]).count = 1 := by decide

example : hasClass "a foo b".toList "foo".toList = true := by decide
example : hasClass "foobar".toList "foo".toList = false := by decide
example : removeClass "a foo foo b".toList "foo".toList = "a b".toList := by decide
example : removeClass "foo".toList "foo".toList = "".toList := by decide
example : addClass "a b".toList "c".toList = "a b c".toList := by decide
example : addClass "a a".toList "a".toList = "a a".toList := by decide
example : words "  a  foo b ".toList = ["a".toList, "foo".toList, "b".toList] := by decide

end Micro
